import Mathlib

/-!
Verification of the monday-graphql-api file-upload transformation pipeline and
client-side validation, shallowly embedded from the TypeScript sources
(packages/api/lib/api-client/middleware/file-upload.ts,
packages/api/lib/api-client/api-client.ts, and the duplicate middleware copy).
-/

set_option maxHeartbeats 1000000

namespace MondayApi

/-- An opaque handle to binary data (a JS File or Blob). The code never
inspects its bytes, so an identifier suffices. -/
structure FileB where
  id : Nat
deriving DecidableEq, Repr

/-- A JS value as it can occur in a GraphQL variables tree: scalars,
arrays, objects (insertion-ordered string-keyed fields), and binary
payload leaves. -/
inductive JsValue where
  | null : JsValue
  | bool (b : Bool) : JsValue
  | num (n : Int) : JsValue
  | str (s : String) : JsValue
  | file (f : FileB) : JsValue
  | arr (xs : List JsValue) : JsValue
  | obj (fs : List (String × JsValue)) : JsValue
deriving Repr



/- Embeds the inner `check` closure of `hasFiles` from file-upload.ts:
`check` returns true on a File/Blob, recurses into arrays via `some`, and
into object values via `Object.values(...).some`. `checkArr` and
`checkObj` spell out the `some` folds. -/
mutual

def checkVal : JsValue → Bool
  | .file _ => true
  | .arr xs => checkArr xs
  | .obj fs => checkObj fs
  | _ => false

def checkArr : List JsValue → Bool
  | [] => false
  | v :: vs => checkVal v || checkArr vs

def checkObj : List (String × JsValue) → Bool
  | [] => false
  | (_, v) :: fs => checkVal v || checkObj fs

end

/-- Embeds `hasFiles(variables)`: returns false when no variables object
is supplied, otherwise runs `check` on it. -/
def hasFiles : Option JsValue → Bool
  | none => false
  | some v => checkVal v

/-- Spec-level predicate: the tree contains a binary payload leaf at some
depth, inside arrays or nested objects. -/
inductive HasLeaf : JsValue → Prop where
  | file (f : FileB) : HasLeaf (.file f)
  | arr {v : JsValue} {xs : List JsValue} (h : v ∈ xs) (hv : HasLeaf v) :
      HasLeaf (.arr xs)
  | obj {k : String} {v : JsValue} {fs : List (String × JsValue)}
      (h : (k, v) ∈ fs) (hv : HasLeaf v) : HasLeaf (.obj fs)

/-- One extracted file together with the dotted path it was found at,
as in the `FileEntry` interface of file-upload.ts. -/
structure FileEntry where
  path : String
  file : FileB
deriving DecidableEq, Repr

/- Embeds the inner `processValue` closure of `extractFiles` from
file-upload.ts. The JS version mutates a shared `files` array while
returning the cleaned value; here each call returns the cleaned value
paired with the list of entries it pushed, in push order. `processArr`
spells out `value.map` with its 0-based index and `processObj` the
`Object.entries` loop; file entries are concatenated in visit order,
matching the order of pushes into the shared array. -/
mutual

def processValue : JsValue → String → JsValue × List FileEntry
  | .file f, currentPath => (.null, [⟨currentPath, f⟩])
  | .arr xs, currentPath => let r := processArr xs currentPath 0; (.arr r.1, r.2)
  | .obj fs, currentPath => let r := processObj fs currentPath; (.obj r.1, r.2)
  | v, _ => (v, [])

def processArr : List JsValue → String → Nat → List JsValue × List FileEntry
  | [], _, _ => ([], [])
  | v :: vs, currentPath, i =>
      let r1 := processValue v (currentPath ++ "." ++ toString i)
      let r2 := processArr vs currentPath (i + 1)
      (r1.1 :: r2.1, r1.2 ++ r2.2)

def processObj : List (String × JsValue) → String →
    List (String × JsValue) × List FileEntry
  | [], _ => ([], [])
  | (k, v) :: fs, currentPath =>
      let r1 := processValue v (currentPath ++ "." ++ k)
      let r2 := processObj fs currentPath
      ((k, r1.1) :: r2.1, r1.2 ++ r2.2)

end

/-- Embeds `extractFiles(variables, path = "variables")`: runs
`processValue` on the whole tree and returns the cleaned variables with
the collected file entries. -/
def extractFiles (vars : JsValue) (path : String := "variables") :
    JsValue × List FileEntry :=
  processValue vars path

/-- `Object.entries` over a JS array: index-value pairs with 0-based
indices in ascending order (keys are the decimal strings of the
indices, taken here as the `Nat` to be rendered by `toString`). -/
def enumIdx (i : Nat) : List α → List (Nat × α)
  | [] => []
  | x :: xs => (i, x) :: enumIdx (i + 1) xs

/-- A string that holds one double-quote character, used by the JSON
serializer below. -/
def dq : String := ⟨['\x22']⟩

/-- JSON string escaping for the serializer: backslash and double quote
are escaped; other characters are kept (enough for `JSON.stringify`
on the values this development evaluates). -/
def escapeJsonChar (c : Char) : String :=
  if c = '\x5c' then ⟨['\x5c', '\x5c']⟩
  else if c = '\x22' then ⟨['\x5c', '\x22']⟩
  else String.singleton c

/-- JSON serialization of a string literal. -/
def quoteStr (s : String) : String :=
  dq ++ String.join (s.toList.map escapeJsonChar) ++ dq

/- Model of `JSON.stringify` on the JS values of this development:
objects and arrays are rendered recursively in order; a File/Blob has no
enumerable own properties, so it serializes as an empty object. -/
mutual

def serialize : JsValue → String
  | .null => "null"
  | .bool b => cond b "true" "false"
  | .num n => toString n
  | .str s => quoteStr s
  | .file _ => "\x7b" ++ "\x7d"
  | .arr xs => "[" ++ serializeArr xs ++ "]"
  | .obj fs => "\x7b" ++ serializeObj fs ++ "\x7d"

def serializeArr : List JsValue → String
  | [] => ""
  | [v] => serialize v
  | v :: vs => serialize v ++ "," ++ serializeArr vs

def serializeObj : List (String × JsValue) → String
  | [] => ""
  | [(k, v)] => quoteStr k ++ ":" ++ serialize v
  | (k, v) :: fs => quoteStr k ++ ":" ++ serialize v ++ "," ++ serializeObj fs

end

/-- The value of one multipart form part: either a string field or a
binary file part (`FormData.append` accepts both). -/
inductive FormValue where
  | str (s : String) : FormValue
  | file (f : FileB) : FormValue
deriving DecidableEq, Repr

/-- A `FormData` object modelled as its ordered list of appended
(name, value) parts. -/
abbrev FormData := List (String × FormValue)

/-- Embeds the `map` construction of `createMultipartFormData`:
`Object.entries(files)` enumerates the array with decimal-string index
keys in order, and each key is mapped to the one-element list holding
that entry's path. -/
def buildMap (files : List FileEntry) : List (String × List String) :=
  (enumIdx 0 files).map (fun p => (toString p.1, [p.2.path]))

/-- The `map` object rendered as a JS value, for `JSON.stringify(map)`. -/
def mapAsJson (files : List FileEntry) : JsValue :=
  .obj ((buildMap files).map (fun p => (p.1, .arr (p.2.map .str))))

/-- Embeds `createMultipartFormData(query, variables, files)`: appends
the query field, the serialized cleaned variables, the serialized map,
and then one binary part per file entry keyed by its decimal index. -/
def createMultipartFormData (query : String) (vars : JsValue)
    (files : List FileEntry) : FormData :=
  ("query", .str query)
    :: ("variables", .str (serialize vars))
    :: ("map", .str (serialize (mapAsJson files)))
    :: (enumIdx 0 files).map (fun p => (toString p.1, .file p.2.file))

/- Model of the JS `String(value)` coercion applied by `FormData.append`
when given a non-string, non-Blob value (reached when `parsed.query` is
absent or not a string): arrays join their elements with commas, null
inside an array renders empty, objects render as their object tag. -/
mutual

def jsToString : JsValue → String
  | .null => "null"
  | .bool b => cond b "true" "false"
  | .num n => toString n
  | .str s => s
  | .file _ => "[object File]"
  | .arr xs => jsToStringArr xs
  | .obj _ => "[object Object]"

def jsToStringArr : List JsValue → String
  | [] => ""
  | [.null] => ""
  | [v] => jsToString v
  | .null :: vs => "," ++ jsToStringArr vs
  | v :: vs => jsToString v ++ "," ++ jsToStringArr vs

end

/-- The string `FormData.append` stores for the query field: `undefined`
(a missing `query` property) coerces to the string "undefined", any
other value through the JS `String(...)` coercion. -/
def formString : Option JsValue → String
  | none => "undefined"
  | some v => jsToString v

/-- JS property access `parsed.query`: returns the property value on an
object that has it, and `undefined` (here `none`) on any other non-null
value. Access on `null` throws and is handled by the caller. -/
def getField (v : JsValue) (key : String) : Option JsValue :=
  match v with
  | .obj fs => (fs.find? (fun p => p.1 = key)).map (fun p => p.2)
  | _ => none

/-- ASCII lowercasing of one character, as `toLowerCase` acts on the
ASCII header names this code compares. -/
def lowerChar (c : Char) : Char :=
  if 'A' ≤ c ∧ c ≤ 'Z' then Char.ofNat (c.toNat + 32) else c

/-- ASCII lowercasing of a string, modelling `key.toLowerCase()` on
header names. -/
def lowerStr (s : String) : String := ⟨s.data.map lowerChar⟩

/-- The body of an outgoing request: the JSON string produced by the
upstream request layer, a FormData produced by this middleware, or
something else entirely (modelled as `undef`). -/
inductive Body where
  | str (s : String) : Body
  | form (fd : FormData) : Body
  | undef : Body
deriving DecidableEq, Repr

/-- An outgoing request as the middleware sees it: the `vars` field is
the `variables` tree of the source (possibly absent), `headers` the
header record in insertion order. -/
structure Request where
  method : String
  url : String
  headers : List (String × String)
  body : Body
  vars : Option JsValue

/- Embeds the body of the middleware returned by
`createFileUploadMiddleware` in file-upload.ts, acting on the request
after any chained upstream middleware. `parse` stands for the ambient
`JSON.parse`: `none` models a parse throw. A body parsing to JSON null
also returns unchanged, because `parsed.query` then throws inside the
same try block. Header stripping deletes every key whose lowercasing is
content-type. -/
def fileUploadStep (parse : String → Option JsValue) (req : Request) :
    Request :=
  match req.vars with
  | none => req
  | some vars =>
    if checkVal vars = false then req
    else
      match req.body with
      | .str s =>
        match parse s with
        | none => req
        | some .null => req
        | some parsed =>
          let queryVal := getField parsed "query"
          let r := extractFiles vars
          let formData := createMultipartFormData (formString queryVal) r.1 r.2
          let headers := req.headers.filter
            (fun kv => !(lowerStr kv.1 = "content-type"))
          { req with body := .form formData, headers := headers }
      | _ => req

/-- Embeds `createFileUploadMiddleware(existingMiddleware?)`: the
existing middleware, when present, runs first and this component
operates on its output. -/
def createFileUploadMiddleware (existingMiddleware : Option (Request → Request))
    (parse : String → Option JsValue) (request : Request) : Request :=
  let processedRequest :=
    match existingMiddleware with
    | some m => m request
    | none => request
  fileUploadStep parse processedRequest

/- Embeds the duplicate middleware copy (the unnamed source file that
carries the older inline variant): identical detection, extraction and
encoding, but header stripping is two literal deletes,
`delete headers[..Content-Type..]` and `delete headers[..content-type..]`,
with no case folding. -/
def fileUploadStepAlt (parse : String → Option JsValue) (req : Request) :
    Request :=
  match req.vars with
  | none => req
  | some vars =>
    if checkVal vars = false then req
    else
      match req.body with
      | .str s =>
        match parse s with
        | none => req
        | some .null => req
        | some parsed =>
          let queryVal := getField parsed "query"
          let r := extractFiles vars
          let formData := createMultipartFormData (formString queryVal) r.1 r.2
          let headers := req.headers.filter
            (fun kv => !(kv.1 = "Content-Type") && !(kv.1 = "content-type"))
          { req with body := .form formData, headers := headers }
      | _ => req

/-- A string that holds one single-quote character, used to spell the
fixed validation error message. -/
def sq : String := ⟨['\x27']⟩

/-- The fixed error message thrown by the ApiClient constructor and
attached to the versionOverride refinement in api-client.ts. -/
def invalidApiVersionMessage : String :=
  "Invalid API version format. Expected format is " ++ sq ++ "yyyy-mm" ++ sq
    ++ " with month as one of " ++ sq ++ "01" ++ sq ++ ", " ++ sq ++ "04"
    ++ sq ++ ", " ++ sq ++ "07" ++ sq ++ ", or " ++ sq ++ "10" ++ sq ++ "."

/-- Embeds the anchored regular expression test
`/^\d{4}-(01|04|07|10)$/.test(version)` from api-client.ts: the whole
string is four decimal digits, a dash, and one of the four months. -/
def matchesVersionPattern (s : String) : Bool :=
  match s.toList with
  | [a, b, c, d, dash, m1, m2] =>
      a.isDigit && b.isDigit && c.isDigit && d.isDigit && dash = '-'
        && ((m1 = '0' && m2 = '1') || (m1 = '0' && m2 = '4')
            || (m1 = '0' && m2 = '7') || (m1 = '1' && m2 = '0'))
  | _ => false

/-- Embeds `isValidApiVersion` from api-client.ts. -/
def isValidApiVersion (version : String) : Bool :=
  version = "dev" || matchesVersionPattern version

/-- The version-pattern requirement as the spec words it: a string
matching `\d{4}-(01|04|07|10)` in full, four digits, a dash, and one of
the four quarter months. -/
def SpecVersionPattern (s : String) : Prop :=
  ∃ ds mm, List.length ds = 4 ∧ (∀ c ∈ ds, c.isDigit = true)
    ∧ mm ∈ (["01", "04", "07", "10"] : List String)
    ∧ s = String.mk ds ++ "-" ++ mm

/-- The configuration object accepted by the ApiClient constructor
(the `requestConfig` member carries no validated state and is left
out). -/
structure ApiClientConfig where
  token : String
  apiVersion : Option String
  endpoint : Option String

/-- The state an ApiClient stores after a successful construction. -/
structure ApiClientState where
  token : String
  defaultApiVersion : String
  defaultEndpoint : Option String

/-- Embeds the ApiClient constructor: the supplied apiVersion (or the
package default when absent) is validated before anything else; an
invalid version throws the fixed message, otherwise the configuration
is stored. The value of the package default version constant lives in a
file outside the sources, so it is a parameter here. -/
def ApiClient.construct (defaultVersion : String) (config : ApiClientConfig) :
    Except String ApiClientState :=
  let apiVersion := config.apiVersion.getD defaultVersion
  if !isValidApiVersion apiVersion then .error invalidApiVersionMessage
  else .ok ⟨config.token, apiVersion, config.endpoint⟩

/-- The per-request options object validated by the zod schema
`requestOptionsSchema` in api-client.ts. A JS number is modelled as an
integer. -/
structure RequestOptions where
  versionOverride : Option String
  timeout : Option Int
deriving DecidableEq, Repr

/-- Embeds the versionOverride branch of `requestOptionsSchema`:
`z.string().nonempty().optional().refine(v, not v or isValidApiVersion v)`.
An absent field passes; a present field must be nonempty and, being
nonempty, must satisfy the refinement. -/
def validVersionOverride : Option String → Bool
  | none => true
  | some s => !(s = "") && isValidApiVersion s

/-- Embeds the timeout branch of `requestOptionsSchema`:
`z.number().positive().max(60000).optional()`. -/
def validTimeout : Option Int → Bool
  | none => true
  | some t => decide (0 < t) && decide (t ≤ 60000)

/-- Embeds `requestOptionsSchema.parse(options)`: throws when either
field fails its checks, otherwise returns the options. -/
def requestOptionsParse (o : RequestOptions) : Except String RequestOptions :=
  if !validVersionOverride o.versionOverride then
    .error "versionOverride failed validation"
  else if !validTimeout o.timeout then
    .error "timeout failed validation"
  else .ok o

/-- The observable outcome of `executeRequest` up to the point where a
client is created: either the zod parse rejected the options, or
validation passed and a client is created for the executor (network
behaviour is outside this model). -/
inductive ExecOutcome where
  | rejected (e : String) : ExecOutcome
  | clientCreated (validatedOptions : Option RequestOptions) : ExecOutcome
deriving DecidableEq, Repr

/-- Embeds the head of `executeRequest`: options, when supplied, go
through `requestOptionsSchema.parse` first, and a failure there rejects
the call before `createClient` runs. -/
def executeRequest (options : Option RequestOptions) : ExecOutcome :=
  match options with
  | none => .clientCreated none
  | some o =>
    match requestOptionsParse o with
    | .error e => .rejected e
    | .ok validated => .clientCreated (some validated)

/- Modelled from the spec: the cleaned tree described in the Tree
Extractor contract, identical in shape and non-file scalar values to
the input with every binary payload leaf position replaced by null. -/
mutual

def nullify : JsValue → JsValue
  | .file _ => .null
  | .arr xs => .arr (nullifyArr xs)
  | .obj fs => .obj (nullifyObj fs)
  | v => v

def nullifyArr : List JsValue → List JsValue
  | [] => []
  | v :: vs => nullify v :: nullifyArr vs

def nullifyObj : List (String × JsValue) → List (String × JsValue)
  | [] => []
  | (k, v) :: fs => (k, nullify v) :: nullifyObj fs

end

/- Modelled from the spec: the depth-first, array-index-ascending,
object-key-insertion-order listing of file entries, each carrying the
dotted path at which its leaf sits. -/
mutual

def dfsEntries : JsValue → String → List FileEntry
  | .file f, p => [⟨p, f⟩]
  | .arr xs, p => dfsEntriesArr xs p 0
  | .obj fs, p => dfsEntriesObj fs p
  | _, _ => []

def dfsEntriesArr : List JsValue → String → Nat → List FileEntry
  | [], _, _ => []
  | v :: vs, p, i =>
      dfsEntries v (p ++ "." ++ toString i) ++ dfsEntriesArr vs p (i + 1)

def dfsEntriesObj : List (String × JsValue) → String → List FileEntry
  | [], _ => []
  | (k, v) :: fs, p => dfsEntries v (p ++ "." ++ k) ++ dfsEntriesObj fs p

end

/-- One step of a traversal position: an object key or a 0-based array
index. -/
inductive Seg where
  | key (k : String) : Seg
  | idx (i : Nat) : Seg
deriving DecidableEq, Repr

/-- Looks a traversal position up in a tree: an index step selects that
element of an array, a key step the first field of that name in an
object. -/
def getAt : JsValue → List Seg → Option JsValue
  | v, [] => some v
  | .arr xs, .idx i :: rest =>
    match xs.get? i with
    | some v => getAt v rest
    | none => none
  | .obj fs, .key k :: rest =>
    match fs.find? (fun q => q.1 = k) with
    | some q => getAt q.2 rest
    | none => none
  | _, _ :: _ => none

/-- Modelled from the spec: the dotted path of a traversal position,
the root token followed by `.key` for object keys and `.index` for
0-based decimal array indices, in traversal order. -/
def renderPath (root : String) : List Seg → String
  | [] => root
  | .key k :: rest => renderPath (root ++ "." ++ k) rest
  | .idx i :: rest => renderPath (root ++ "." ++ toString i) rest

def keysFresh (k : String) : List (String × JsValue) → Bool
  | [] => true
  | (k2, _) :: fs => !(k2 = k) && keysFresh k fs

mutual

def wfKeys : JsValue → Bool
  | .arr xs => wfKeysArr xs
  | .obj fs => wfKeysObj fs
  | _ => true

def wfKeysArr : List JsValue → Bool
  | [] => true
  | v :: vs => wfKeys v && wfKeysArr vs

def wfKeysObj : List (String × JsValue) → Bool
  | [] => true
  | (k, v) :: fs => keysFresh k fs && wfKeys v && wfKeysObj fs

end

/-- Discriminates binary file parts from string fields in a form. -/
def FormValue.isFile : FormValue → Bool
  | .file _ => true
  | .str _ => false

/-- File handle used by the two-file example. -/
def fA : FileB := ⟨0⟩

/-- Second file handle used by the two-file example. -/
def fB : FileB := ⟨1⟩

/-- The spec example tree holding two files in one array field. -/
def twoFilesTree : JsValue := .obj [("files", .arr [.file fA, .file fB])]

/-- The spec example nested tree with one file beside a metadata object. -/
def nestedTree : JsValue :=
  .obj [("input", .obj [("attachment",
    .obj [("file", .file ⟨7⟩), ("metadata", .obj [("size", .num 100)])])])]

/-- Expected cleaned form of `nestedTree`: the file leaf nulled, the
metadata subtree untouched. -/
def nestedTreeCleaned : JsValue :=
  .obj [("input", .obj [("attachment",
    .obj [("file", .null), ("metadata", .obj [("size", .num 100)])])])]

/-- A variables tree holding one file. -/
def oneFileVars : JsValue := .obj [("file", .file ⟨3⟩)]

/-- A serialized JSON body that carries no query field. -/
def noQueryBody : String := "\x7b\x22a\x22:1\x7d"

/-- The ambient `JSON.parse` restricted to `noQueryBody`. -/
def noQueryParse : String → Option JsValue :=
  fun s => if s = noQueryBody then some (.obj [("a", .num 1)]) else none

/-- A request carrying a file in its variables whose serialized body
holds no query field. -/
def noQueryReq : Request :=
  { method := "POST", url := "https://api.monday.com/v2",
    headers := [("Content-Type", "application/json")],
    body := .str noQueryBody, vars := some oneFileVars }

/-- A serialized JSON body with a query field. -/
def uploadBody : String := "\x7b\x22query\x22:\x22mutation\x22\x7d"

/-- The ambient `JSON.parse` restricted to `uploadBody`. -/
def uploadParse : String → Option JsValue :=
  fun s => if s = uploadBody then some (.obj [("query", .str "mutation")]) else none

/-- A request with an upper-cased content-type header name. -/
def upperCaseHeaderReq : Request :=
  { method := "POST", url := "https://api.monday.com/v2",
    headers := [("CONTENT-TYPE", "application/json"), ("Authorization", "tok")],
    body := .str uploadBody, vars := some oneFileVars }

mutual

theorem processValue_fst : ∀ (v : JsValue) (p : String),
    (processValue v p).1 = nullify v
  | .null, _ => rfl
  | .bool _, _ => rfl
  | .num _, _ => rfl
  | .str _, _ => rfl
  | .file _, _ => rfl
  | .arr xs, p => by
      have h := processArr_fst xs p 0
      simp [processValue, nullify, h]
  | .obj fs, p => by
      have h := processObj_fst fs p
      simp [processValue, nullify, h]

theorem processArr_fst : ∀ (xs : List JsValue) (p : String) (i : Nat),
    (processArr xs p i).1 = nullifyArr xs
  | [], _, _ => rfl
  | v :: vs, p, i => by
      have h1 := processValue_fst v (p ++ "." ++ toString i)
      have h2 := processArr_fst vs p (i + 1)
      simp [processArr, nullifyArr, h1, h2]

theorem processObj_fst : ∀ (fs : List (String × JsValue)) (p : String),
    (processObj fs p).1 = nullifyObj fs
  | [], _ => rfl
  | (k, v) :: fs, p => by
      have h1 := processValue_fst v (p ++ "." ++ k)
      have h2 := processObj_fst fs p
      simp [processObj, nullifyObj, h1, h2]

end

mutual

theorem processValue_snd : ∀ (v : JsValue) (p : String),
    (processValue v p).2 = dfsEntries v p
  | .null, _ => rfl
  | .bool _, _ => rfl
  | .num _, _ => rfl
  | .str _, _ => rfl
  | .file _, _ => rfl
  | .arr xs, p => by
      have h := processArr_snd xs p 0
      simp [processValue, dfsEntries, h]
  | .obj fs, p => by
      have h := processObj_snd fs p
      simp [processValue, dfsEntries, h]

theorem processArr_snd : ∀ (xs : List JsValue) (p : String) (i : Nat),
    (processArr xs p i).2 = dfsEntriesArr xs p i
  | [], _, _ => rfl
  | v :: vs, p, i => by
      have h1 := processValue_snd v (p ++ "." ++ toString i)
      have h2 := processArr_snd vs p (i + 1)
      simp [processArr, dfsEntriesArr, h1, h2]

theorem processObj_snd : ∀ (fs : List (String × JsValue)) (p : String),
    (processObj fs p).2 = dfsEntriesObj fs p
  | [], _ => rfl
  | (k, v) :: fs, p => by
      have h1 := processValue_snd v (p ++ "." ++ k)
      have h2 := processObj_snd fs p
      simp [processObj, dfsEntriesObj, h1, h2]

end

mutual

theorem checkVal_iff : ∀ v : JsValue, checkVal v = true ↔ HasLeaf v
  | .null => by
      simp [checkVal]
      intro h; cases h
  | .bool b => by
      simp [checkVal]
      intro h; cases h
  | .num n => by
      simp [checkVal]
      intro h; cases h
  | .str s => by
      simp [checkVal]
      intro h; cases h
  | .file f => by
      simp [checkVal]
      exact HasLeaf.file f
  | .arr xs => by
      rw [show checkVal (.arr xs) = checkArr xs from rfl, checkArr_iff xs]
      constructor
      · rintro ⟨v, hv, hl⟩; exact HasLeaf.arr hv hl
      · rintro (_ | ⟨hv, hl⟩ | _)
        · exact ⟨_, by assumption, by assumption⟩
  | .obj fs => by
      rw [show checkVal (.obj fs) = checkObj fs from rfl, checkObj_iff fs]
      constructor
      · rintro ⟨k, v, hv, hl⟩; exact HasLeaf.obj hv hl
      · intro h
        cases h with
        | obj hv hl => exact ⟨_, _, hv, hl⟩

theorem checkArr_iff : ∀ xs : List JsValue,
    checkArr xs = true ↔ ∃ v, v ∈ xs ∧ HasLeaf v
  | [] => by simp [checkArr]
  | v :: vs => by
      rw [show checkArr (v :: vs) = (checkVal v || checkArr vs) from rfl]
      rw [Bool.or_eq_true, checkVal_iff v, checkArr_iff vs]
      constructor
      · rintro (h | ⟨w, hw, hl⟩)
        · exact ⟨v, List.mem_cons_self v vs, h⟩
        · exact ⟨w, List.mem_cons_of_mem v hw, hl⟩
      · rintro ⟨w, hw, hl⟩
        rcases List.mem_cons.mp hw with rfl | hw
        · exact Or.inl hl
        · exact Or.inr ⟨w, hw, hl⟩

theorem checkObj_iff : ∀ fs : List (String × JsValue),
    checkObj fs = true ↔ ∃ k v, (k, v) ∈ fs ∧ HasLeaf v
  | [] => by simp [checkObj]
  | (k, v) :: fs => by
      rw [show checkObj ((k, v) :: fs) = (checkVal v || checkObj fs) from rfl]
      rw [Bool.or_eq_true, checkVal_iff v, checkObj_iff fs]
      constructor
      · rintro (h | ⟨k2, v2, hv, hl⟩)
        · exact ⟨k, v, List.mem_cons_self _ _, h⟩
        · exact ⟨k2, v2, List.mem_cons_of_mem _ hv, hl⟩
      · rintro ⟨k2, v2, hv, hl⟩
        rcases List.mem_cons.mp hv with heq | hv
        · cases heq; exact Or.inl hl
        · exact Or.inr ⟨k2, v2, hv, hl⟩

end

mutual

theorem nullify_of_checkVal_false : ∀ v : JsValue, checkVal v = false →
    nullify v = v
  | .null, _ => rfl
  | .bool _, _ => rfl
  | .num _, _ => rfl
  | .str _, _ => rfl
  | .file _, h => by simp [checkVal] at h
  | .arr xs, h => by
      have hxs : checkArr xs = false := h
      simp [nullify, nullifyArr_of_checkArr_false xs hxs]
  | .obj fs, h => by
      have hfs : checkObj fs = false := h
      simp [nullify, nullifyObj_of_checkObj_false fs hfs]

theorem nullifyArr_of_checkArr_false : ∀ xs : List JsValue,
    checkArr xs = false → nullifyArr xs = xs
  | [], _ => rfl
  | v :: vs, h => by
      have h2 : (checkVal v || checkArr vs) = false := h
      rw [Bool.or_eq_false_iff] at h2
      simp [nullifyArr, nullify_of_checkVal_false v h2.1,
        nullifyArr_of_checkArr_false vs h2.2]

theorem nullifyObj_of_checkObj_false : ∀ fs : List (String × JsValue),
    checkObj fs = false → nullifyObj fs = fs
  | [], _ => rfl
  | (k, v) :: fs, h => by
      have h2 : (checkVal v || checkObj fs) = false := h
      rw [Bool.or_eq_false_iff] at h2
      simp [nullifyObj, nullify_of_checkVal_false v h2.1,
        nullifyObj_of_checkObj_false fs h2.2]

end

theorem enumIdx_getElem? : ∀ (xs : List α) (k i : Nat),
    (enumIdx k xs)[i]? = xs[i]?.map (fun x => (k + i, x))
  | [], _, _ => by simp [enumIdx]
  | x :: xs, k, 0 => by simp [enumIdx]
  | x :: xs, k, i + 1 => by
      have ih := enumIdx_getElem? xs (k + 1) i
      have harith : k + 1 + i = k + (i + 1) := by omega
      simp only [enumIdx, List.getElem?_cons_succ, ih, harith]

theorem buildMap_getElem? (files : List FileEntry) (i : Nat)
    (h : i < files.length) :
    (buildMap files)[i]? = some (toString i, [(files[i]).path]) := by
  unfold buildMap
  rw [List.getElem?_map, enumIdx_getElem?, List.getElem?_eq_getElem h]
  simp

theorem keysFresh_ne : ∀ (k : String) (fs : List (String × JsValue))
    (k2 : String) (v2 : JsValue),
    keysFresh k fs = true → (k2, v2) ∈ fs → k2 ≠ k
  | k, [], k2, v2, _, hmem => by simp at hmem
  | k, (k3, v3) :: fs, k2, v2, hf, hmem => by
      simp only [keysFresh, Bool.and_eq_true, Bool.not_eq_true',
        decide_eq_false_iff_not] at hf
      rcases List.mem_cons.mp hmem with heq | hmem2
      · obtain ⟨h1, -⟩ := Prod.mk.inj heq
        subst h1
        exact hf.1
      · exact keysFresh_ne k fs k2 v2 (by simpa using hf.2) hmem2

mutual

theorem pathSpec_val : ∀ (v : JsValue) (p : String) (e : FileEntry),
    wfKeys v = true → e ∈ (processValue v p).2 →
    ∃ segs, getAt v segs = some (.file e.file) ∧ e.path = renderPath p segs
  | .null, p, e, _, h => by simp [processValue] at h
  | .bool b, p, e, _, h => by simp [processValue] at h
  | .num n, p, e, _, h => by simp [processValue] at h
  | .str s, p, e, _, h => by simp [processValue] at h
  | .file f, p, e, _, h => by
      simp [processValue] at h
      subst h
      exact ⟨[], by simp [getAt], by simp [renderPath]⟩
  | .arr xs, p, e, hwf, h => by
      have hxs : wfKeysArr xs = true := hwf
      have h2 : e ∈ (processArr xs p 0).2 := by simpa [processValue] using h
      obtain ⟨j, v, segs, hj, hget, hpath⟩ := pathSpec_arr xs p 0 e hxs h2
      refine ⟨.idx j :: segs, ?_, ?_⟩
      · simp [getAt, hj, hget]
      · simpa [renderPath] using hpath
  | .obj fs, p, e, hwf, h => by
      have hfs : wfKeysObj fs = true := hwf
      have h2 : e ∈ (processObj fs p).2 := by simpa [processValue] using h
      obtain ⟨k, v, segs, hk, hget, hpath⟩ := pathSpec_obj fs p e hfs h2
      exact ⟨.key k :: segs, by simp [getAt, hk, hget], by simpa [renderPath] using hpath⟩

theorem pathSpec_arr : ∀ (xs : List JsValue) (p : String) (i : Nat) (e : FileEntry),
    wfKeysArr xs = true → e ∈ (processArr xs p i).2 →
    ∃ j v segs, xs[j]? = some v ∧ getAt v segs = some (.file e.file) ∧
      e.path = renderPath (p ++ "." ++ toString (i + j)) segs
  | [], _, _, _, _, h => by simp [processArr] at h
  | v :: vs, p, i, e, hwf, h => by
      have hw : wfKeys v = true ∧ wfKeysArr vs = true := by
        have h2 : (wfKeys v && wfKeysArr vs) = true := hwf
        simpa [Bool.and_eq_true] using h2
      have h2 : e ∈ (processValue v (p ++ "." ++ toString i)).2
          ∨ e ∈ (processArr vs p (i + 1)).2 := by
        simpa [processArr, List.mem_append] using h
      rcases h2 with h2 | h2
      · obtain ⟨segs, hget, hpath⟩ := pathSpec_val v _ e hw.1 h2
        exact ⟨0, v, segs, by simp, hget, by simpa using hpath⟩
      · obtain ⟨j, w, segs, hj, hget, hpath⟩ := pathSpec_arr vs p (i + 1) e hw.2 h2
        refine ⟨j + 1, w, segs, by simpa using hj, hget, ?_⟩
        have harith : i + (j + 1) = i + 1 + j := by omega
        rw [harith]
        exact hpath

theorem pathSpec_obj : ∀ (fs : List (String × JsValue)) (p : String) (e : FileEntry),
    wfKeysObj fs = true → e ∈ (processObj fs p).2 →
    ∃ k v segs, fs.find? (fun q => q.1 = k) = some (k, v) ∧
      getAt v segs = some (.file e.file) ∧ e.path = renderPath (p ++ "." ++ k) segs
  | [], _, _, _, h => by simp [processObj] at h
  | (k, v) :: fs, p, e, hwf, h => by
      have hw : keysFresh k fs = true ∧ wfKeys v = true ∧ wfKeysObj fs = true := by
        have h2 : ((keysFresh k fs && wfKeys v) && wfKeysObj fs) = true := hwf
        rw [Bool.and_eq_true, Bool.and_eq_true] at h2
        exact ⟨h2.1.1, h2.1.2, h2.2⟩
      have h2 : e ∈ (processValue v (p ++ "." ++ k)).2 ∨ e ∈ (processObj fs p).2 := by
        simpa [processObj, List.mem_append] using h
      rcases h2 with h2 | h2
      · obtain ⟨segs, hget, hpath⟩ := pathSpec_val v _ e hw.2.1 h2
        refine ⟨k, v, segs, ?_, hget, hpath⟩
        rw [List.find?_cons_of_pos]
        simp
      · obtain ⟨k2, v2, segs, hk2, hget, hpath⟩ := pathSpec_obj fs p e hw.2.2 h2
        refine ⟨k2, v2, segs, ?_, hget, hpath⟩
        have hk2mem : (k2, v2) ∈ fs := List.mem_of_find?_eq_some hk2
        have hne := keysFresh_ne k fs k2 v2 hw.1 hk2mem
        rw [List.find?_cons_of_neg]
        · exact hk2
        · simpa using fun hcontra => hne hcontra.symm

end

theorem list_length_four {l : List Char} (h : l.length = 4) :
    ∃ a b c d, l = [a, b, c, d] := by
  match l, h with
  | [a, b, c, d], _ => exact ⟨a, b, c, d, rfl⟩

theorem matchesVersionPattern_iff (s : String) :
    matchesVersionPattern s = true ↔ SpecVersionPattern s := by
  constructor
  · intro h
    unfold matchesVersionPattern at h
    split at h
    next a b c d dash m1 m2 heq =>
      simp only [Bool.and_eq_true, Bool.or_eq_true, decide_eq_true_eq] at h
      obtain ⟨⟨⟨⟨⟨ha, hb⟩, hc⟩, hd⟩, hdash⟩, hm⟩ := h
      subst hdash
      have hsdata : s.data = [a, b, c, d, '-', m1, m2] := heq
      simp only [or_assoc] at hm
      rcases hm with ⟨rfl, rfl⟩ | ⟨rfl, rfl⟩ | ⟨rfl, rfl⟩ | ⟨rfl, rfl⟩
      · exact ⟨[a, b, c, d], "01", rfl, by simp [ha, hb, hc, hd], by simp,
          by apply String.ext; rw [hsdata]; rfl⟩
      · exact ⟨[a, b, c, d], "04", rfl, by simp [ha, hb, hc, hd], by simp,
          by apply String.ext; rw [hsdata]; rfl⟩
      · exact ⟨[a, b, c, d], "07", rfl, by simp [ha, hb, hc, hd], by simp,
          by apply String.ext; rw [hsdata]; rfl⟩
      · exact ⟨[a, b, c, d], "10", rfl, by simp [ha, hb, hc, hd], by simp,
          by apply String.ext; rw [hsdata]; rfl⟩
    next =>
      exact absurd h (by simp)
  · rintro ⟨ds, mm, hlen, hdig, hmm, rfl⟩
    obtain ⟨a, b, c, d, rfl⟩ := list_length_four hlen
    have ha := hdig a (by simp)
    have hb := hdig b (by simp)
    have hc := hdig c (by simp)
    have hd := hdig d (by simp)
    have hlist : ∀ t : String,
        (String.mk [a, b, c, d] ++ "-" ++ t).toList
          = [a, b, c, d] ++ '-' :: t.data := by
      intro t
      rfl
    simp only [List.mem_cons, List.not_mem_nil, or_false] at hmm
    rcases hmm with rfl | rfl | rfl | rfl <;>
      · unfold matchesVersionPattern
        rw [hlist _]
        simp [ha, hb, hc, hd]

/-- C1 (amended): for every request whose variables contain a binary
payload leaf, the file-upload middleware returns the request unmodified
when the body is not a string, when the body fails to parse as JSON, or
when the body parses to JSON null (property access on null throws inside
the same try block and is caught); in all these cases no error is
raised. A parsed non-null body without a query field does NOT pass
through; see the counterexample. -/
theorem claim_c1 : ∀ (parse : String → Option JsValue) (req : Request),
    hasFiles req.vars = true →
    (∀ fd, req.body = .form fd → fileUploadStep parse req = req) ∧
    (req.body = .undef → fileUploadStep parse req = req) ∧
    (∀ s, req.body = .str s → parse s = none → fileUploadStep parse req = req) ∧
    (∀ s, req.body = .str s → parse s = some .null → fileUploadStep parse req = req) := by
  intro parse req hv
  obtain ⟨m, u, hs, b, vv⟩ := req
  cases vv with
  | none => simp [hasFiles] at hv
  | some vars =>
    have hcv : checkVal vars = true := hv
    refine ⟨?_, ?_, ?_, ?_⟩
    · intro fd hb
      subst hb
      simp [fileUploadStep, hcv]
    · intro hb
      subst hb
      simp [fileUploadStep, hcv]
    · intro s hb hp
      subst hb
      simp [fileUploadStep, hcv, hp]
    · intro s hb hp
      subst hb
      simp [fileUploadStep, hcv, hp]

/-- C1 witness: a concrete file-carrying request whose body fails to
parse is returned unmodified. -/
theorem claim_c1_witness :
    fileUploadStep (fun _ => none) noQueryReq = noQueryReq :=
  (claim_c1 (fun _ => none) noQueryReq (by decide)).2.2.1 noQueryBody rfl rfl

/-- C1 counterexample: a file-carrying request whose body parses to an
object with no query field is transformed rather than returned
unmodified, contradicting the claim as stated. -/
theorem claim_c1_counterexample :
    hasFiles noQueryReq.vars = true ∧
    noQueryReq.body = .str noQueryBody ∧
    noQueryParse noQueryBody = some (.obj [("a", .num 1)]) ∧
    getField (.obj [("a", .num 1)]) "query" = none ∧
    fileUploadStep noQueryParse noQueryReq ≠ noQueryReq := by
  refine ⟨by decide, rfl, rfl, rfl, ?_⟩
  intro h
  have hb := congrArg Request.body h
  exact absurd hb (by decide)

/-- C2: the duplicate middleware copy deletes only the two literal
casings Content-Type and content-type, so a request arriving with
CONTENT-TYPE keeps that header after transformation, while the primary
middleware strips every casing; the spec requires case-insensitive
stripping. -/
theorem claim_c2_bug :
    (fileUploadStepAlt uploadParse upperCaseHeaderReq).body
      ≠ upperCaseHeaderReq.body ∧
    ("CONTENT-TYPE", "application/json")
      ∈ (fileUploadStepAlt uploadParse upperCaseHeaderReq).headers ∧
    (fileUploadStep uploadParse upperCaseHeaderReq).headers
      = [("Authorization", "tok")] := by
  refine ⟨by decide, by decide, by decide⟩

theorem filter_isFile_enumIdx (files : List FileEntry) : ∀ i : Nat,
    ((enumIdx i files).map
        (fun pr => (toString pr.1, FormValue.file pr.2.file))).filter
      (fun pr => pr.2.isFile)
    = (enumIdx i files).map
        (fun pr => (toString pr.1, FormValue.file pr.2.file)) := by
  induction files with
  | nil => intro i; rfl
  | cons e fs ih =>
      intro i
      show List.filter _ ((toString i, FormValue.file e.file) :: _) = _
      rw [List.filter_cons_of_pos rfl]
      exact congrArg (List.cons _) (ih (i + 1))

/-- C3: extractFiles lists file entries in depth-first order, arrays in
ascending index order and objects in insertion order (the listing equals
the spec-modelled traversal), the encoder map sends the decimal string
of each index i to the one-element list holding the path of the i-th
entry, and on the two-file example the entries and the map are exactly
as the spec displays them. -/
theorem claim_c3 :
    (∀ (v : JsValue) (p : String), (extractFiles v p).2 = dfsEntries v p) ∧
    (∀ (files : List FileEntry) (i : Nat), ∀ h : i < files.length,
      (buildMap files)[i]? = some (toString i, [(files[i]).path])) ∧
    (extractFiles twoFilesTree).2
      = [⟨"variables.files.0", fA⟩, ⟨"variables.files.1", fB⟩] ∧
    buildMap (extractFiles twoFilesTree).2
      = [("0", ["variables.files.0"]), ("1", ["variables.files.1"])] :=
  ⟨fun v p => processValue_snd v p,
   fun files i h => buildMap_getElem? files i h,
   rfl, rfl⟩

/-- C3 witness: the map property applied at the concrete two-entry file
list of the example. -/
theorem claim_c3_witness :
    (buildMap [⟨"variables.files.0", fA⟩, ⟨"variables.files.1", fB⟩])[1]?
      = some ("1", ["variables.files.1"]) := by
  have h := claim_c3.2.1
    [⟨"variables.files.0", fA⟩, ⟨"variables.files.1", fB⟩] 1 (by decide)
  simpa using h

/-- C4: the cleaned tree returned by extractFiles is the input with
every binary payload leaf replaced by null and everything else kept --
identical shape, identical non-file scalar values -- and a tree with no
binary leaf anywhere comes back equal to the input. -/
theorem claim_c4 : ∀ (v : JsValue) (p : String),
    (extractFiles v p).1 = nullify v ∧
    (¬ HasLeaf v → (extractFiles v p).1 = v) := by
  intro v p
  refine ⟨processValue_fst v p, ?_⟩
  intro h
  have hc : checkVal v = false := by
    cases hcv : checkVal v
    · rfl
    · exact absurd ((checkVal_iff v).mp hcv) h
  calc (extractFiles v p).1 = nullify v := processValue_fst v p
    _ = v := nullify_of_checkVal_false v hc

/-- C4 witness: a concrete file-free tree survives extraction
unchanged. -/
theorem claim_c4_witness :
    (extractFiles (JsValue.obj [("size", JsValue.num 100)])).1
      = JsValue.obj [("size", JsValue.num 100)] :=
  (claim_c4 (JsValue.obj [("size", JsValue.num 100)]) "variables").2 (by
    intro h
    cases h with
    | obj hmem hl =>
      simp only [List.mem_singleton, Prod.mk.injEq] at hmem
      obtain ⟨-, rfl⟩ := hmem
      cases hl)

/-- C5: every file entry recorded by extractFiles carries the dotted
path obtained by joining the root token with the traversal keys, object
keys as .key and array indices as .index in 0-based decimal (stated for
trees whose objects have pairwise distinct keys, as JS objects do), and
on the nested example the single path is
variables.input.attachment.file with the metadata subtree unchanged. -/
theorem claim_c5 :
    (∀ (v : JsValue) (p : String) (e : FileEntry), wfKeys v = true →
      e ∈ (extractFiles v p).2 →
      ∃ segs, getAt v segs = some (.file e.file)
        ∧ e.path = renderPath p segs) ∧
    extractFiles nestedTree
      = (nestedTreeCleaned, [⟨"variables.input.attachment.file", ⟨7⟩⟩]) :=
  ⟨fun v p e hw hm => pathSpec_val v p e hw hm, rfl⟩

/-- C5 witness: the path property applied to the single entry of the
nested example. -/
theorem claim_c5_witness :
    ∃ segs, getAt nestedTree segs = some (.file ⟨7⟩)
      ∧ "variables.input.attachment.file" = renderPath "variables" segs :=
  claim_c5.1 nestedTree "variables"
    ⟨"variables.input.attachment.file", ⟨7⟩⟩ (by decide) (by decide)

/-- C6: hasFiles is false on an absent variables input and on the empty
object, and on any tree it is true exactly when some node at any depth,
inside arrays or nested objects, is a binary payload leaf. -/
theorem claim_c6 :
    hasFiles none = false ∧
    hasFiles (some (.obj [])) = false ∧
    ∀ v, (hasFiles (some v) = true ↔ HasLeaf v) :=
  ⟨rfl, rfl, fun v => checkVal_iff v⟩

/-- C6 witness: the equivalence applied at a concrete one-file tree. -/
theorem claim_c6_witness :
    hasFiles (some (JsValue.obj [("file", .file ⟨3⟩)])) = true :=
  (claim_c6.2.2 (JsValue.obj [("file", .file ⟨3⟩)])).mpr
    (HasLeaf.obj (List.mem_singleton.mpr rfl) (HasLeaf.file ⟨3⟩))

/-- C7: the multipart encoder sets field query to the literal query
string, field variables to the JSON serialization of the cleaned tree,
and emits exactly one binary part per file entry, keyed by the decimal
string of its index and holding the raw file. -/
theorem claim_c7 : ∀ (query : String) (vars : JsValue) (files : List FileEntry),
    (createMultipartFormData query vars files)[0]?
      = some ("query", .str query) ∧
    (createMultipartFormData query vars files)[1]?
      = some ("variables", .str (serialize vars)) ∧
    ((createMultipartFormData query vars files).filter (fun pr => pr.2.isFile))
      = (enumIdx 0 files).map
          (fun pr => (toString pr.1, FormValue.file pr.2.file)) ∧
    (∀ i : Nat, ∀ h : i < files.length,
      (createMultipartFormData query vars files)[i + 3]?
        = some (toString i, .file (files[i]).file)) := by
  intro query vars files
  refine ⟨rfl, rfl, ?_, ?_⟩
  · show List.filter _ (_ :: _ :: _ :: _) = _
    rw [List.filter_cons_of_neg (fun hc => Bool.false_ne_true hc),
      List.filter_cons_of_neg (fun hc => Bool.false_ne_true hc),
      List.filter_cons_of_neg (fun hc => Bool.false_ne_true hc)]
    exact filter_isFile_enumIdx files 0
  · intro i h
    show (_ :: _ :: _ :: ((enumIdx 0 files).map
      (fun pr => (toString pr.1, FormValue.file pr.2.file))))[i + 3]? = _
    have e1 : i + 3 = (i + 2) + 1 := rfl
    have e2 : i + 2 = (i + 1) + 1 := rfl
    rw [e1, List.getElem?_cons_succ, e2, List.getElem?_cons_succ,
      List.getElem?_cons_succ, List.getElem?_map, enumIdx_getElem?,
      List.getElem?_eq_getElem h]
    simp

/-- C7 witness: the per-index part property applied at a concrete
one-entry list. -/
theorem claim_c7_witness :
    (createMultipartFormData "q" (JsValue.obj [("file", JsValue.null)])
      [⟨"variables.file", ⟨3⟩⟩])[0 + 3]?
      = some (toString 0, .file (⟨3⟩ : FileB)) := by
  have h := (claim_c7 "q" (JsValue.obj [("file", JsValue.null)])
    [⟨"variables.file", ⟨3⟩⟩]).2.2.2 0 (by decide)
  simpa using h

/-- C8: when the middleware transforms a request, only the body and the
headers change: method, target URL and the variables field pass through
unchanged, the outgoing headers are exactly the incoming ones minus
every content-type casing, so every non-content-type header survives,
and the body becomes the multipart encoding. -/
theorem claim_c8 : ∀ (parse : String → Option JsValue) (req : Request)
    (vars : JsValue) (s : String) (parsed : JsValue),
    req.vars = some vars → checkVal vars = true → req.body = .str s →
    parse s = some parsed → parsed ≠ .null →
    (fileUploadStep parse req).method = req.method ∧
    (fileUploadStep parse req).url = req.url ∧
    (fileUploadStep parse req).vars = req.vars ∧
    (fileUploadStep parse req).headers
      = req.headers.filter (fun kv => !(lowerStr kv.1 = "content-type")) ∧
    (∀ k v, (k, v) ∈ req.headers → ¬(lowerStr k = "content-type") →
      (k, v) ∈ (fileUploadStep parse req).headers) ∧
    (fileUploadStep parse req).body
      = .form (createMultipartFormData (formString (getField parsed "query"))
          (extractFiles vars).1 (extractFiles vars).2) := by
  intro parse req vars s parsed hvars hcv hbody hparse hnn
  obtain ⟨m, u, hs, b, vv⟩ := req
  simp only at hvars hbody
  subst hvars
  subst hbody
  have hstep : fileUploadStep parse ⟨m, u, hs, .str s, some vars⟩
      = { method := m, url := u,
          headers := hs.filter (fun kv => !(lowerStr kv.1 = "content-type")),
          body := .form (createMultipartFormData
            (formString (getField parsed "query"))
            (extractFiles vars).1 (extractFiles vars).2),
          vars := some vars } := by
    cases parsed with
    | null => exact absurd rfl hnn
    | bool bb => simp [fileUploadStep, hcv, hparse, extractFiles]
    | num n => simp [fileUploadStep, hcv, hparse, extractFiles]
    | str s2 => simp [fileUploadStep, hcv, hparse, extractFiles]
    | file f => simp [fileUploadStep, hcv, hparse, extractFiles]
    | arr xs => simp [fileUploadStep, hcv, hparse, extractFiles]
    | obj fs => simp [fileUploadStep, hcv, hparse, extractFiles]
  rw [hstep]
  refine ⟨rfl, rfl, rfl, rfl, ?_, rfl⟩
  intro k v hmem hk
  exact List.mem_filter.mpr ⟨hmem, by simp [hk]⟩

/-- C8 witness: the frame property applied at a concrete transformed
request. -/
theorem claim_c8_witness :
    (fileUploadStep uploadParse upperCaseHeaderReq).method
        = upperCaseHeaderReq.method ∧
    (fileUploadStep uploadParse upperCaseHeaderReq).url
        = upperCaseHeaderReq.url ∧
    ("Authorization", "tok")
        ∈ (fileUploadStep uploadParse upperCaseHeaderReq).headers := by
  have h := claim_c8 uploadParse upperCaseHeaderReq oneFileVars uploadBody
    (.obj [("query", .str "mutation")]) rfl (by decide) rfl rfl (by
      intro hc
      cases hc)
  exact ⟨h.1, h.2.1, h.2.2.2.2.1 "Authorization" "tok" (by decide) (by decide)⟩

/-- C9: the ApiClient constructor rejects, synchronously at
construction and with the fixed literal message, exactly those supplied
apiVersion strings that are neither the literal dev nor a full match of
the pattern of four digits, a dash, and one of 01, 04, 07, 10; every
valid version is accepted. -/
theorem claim_c9 : ∀ (defaultVersion : String) (cfg : ApiClientConfig)
    (v : String), cfg.apiVersion = some v →
    ((¬(v = "dev" ∨ SpecVersionPattern v)) ↔
      ApiClient.construct defaultVersion cfg = .error invalidApiVersionMessage) ∧
    ((v = "dev" ∨ SpecVersionPattern v) ↔
      ∃ st, ApiClient.construct defaultVersion cfg = .ok st) := by
  intro defaultVersion cfg v hv
  have hvalid : isValidApiVersion v = true ↔ (v = "dev" ∨ SpecVersionPattern v) := by
    rw [isValidApiVersion, Bool.or_eq_true, decide_eq_true_eq,
      matchesVersionPattern_iff]
  have hconstruct : ApiClient.construct defaultVersion cfg
      = if !isValidApiVersion v then .error invalidApiVersionMessage
        else .ok ⟨cfg.token, v, cfg.endpoint⟩ := by
    rw [ApiClient.construct, hv]
    rfl
  cases hval : isValidApiVersion v with
  | true =>
    have hres : ApiClient.construct defaultVersion cfg
        = .ok ⟨cfg.token, v, cfg.endpoint⟩ := by
      rw [hconstruct, hval]
      rfl
    constructor
    · constructor
      · intro hn
        exact absurd (hvalid.mp hval) hn
      · intro hcontra
        rw [hres] at hcontra
        exact absurd hcontra (by simp)
    · constructor
      · intro _
        exact ⟨_, hres⟩
      · intro _
        exact hvalid.mp hval
  | false =>
    have hres : ApiClient.construct defaultVersion cfg
        = .error invalidApiVersionMessage := by
      rw [hconstruct, hval]
      rfl
    have hnot : ¬(v = "dev" ∨ SpecVersionPattern v) := by
      intro hcontra
      have hcv := hvalid.mpr hcontra
      rw [hval] at hcv
      exact absurd hcv (by simp)
    constructor
    · exact ⟨fun _ => hres, fun _ => hnot⟩
    · constructor
      · intro hcontra
        exact absurd hcontra hnot
      · rintro ⟨st, hst⟩
        rw [hres] at hst
        exact absurd hst (by simp)

/-- C9 witness: a concrete valid version string is accepted by the
constructor. -/
theorem claim_c9_witness :
    ∃ st, ApiClient.construct "2024-01"
      ⟨"token", some "2024-01", none⟩ = .ok st :=
  ((claim_c9 "2024-01" ⟨"token", some "2024-01", none⟩ "2024-01" rfl).2).mp
    (Or.inr ⟨['2', '0', '2', '4'], "01", rfl, by decide, by decide, by decide⟩)

/-- C10: a request or rawRequest call with an options object is
rejected during validation, before a client is created, whenever the
timeout is zero or negative or above 60000 milliseconds or the
versionOverride is the empty string; a timeout in the range (0, 60000]
with no versionOverride is accepted, as are entirely absent options. -/
theorem claim_c10 : ∀ o : RequestOptions,
    (∀ t : Int, o.timeout = some t → (t ≤ 0 ∨ 60000 < t) →
      ∃ e, executeRequest (some o) = .rejected e) ∧
    (o.versionOverride = some "" → ∃ e, executeRequest (some o) = .rejected e) ∧
    (∀ t : Int, o.timeout = some t → 0 < t → t ≤ 60000 →
      o.versionOverride = none → executeRequest (some o) = .clientCreated (some o)) ∧
    (o.timeout = none → o.versionOverride = none →
      executeRequest (some o) = .clientCreated (some o)) ∧
    executeRequest none = .clientCreated none := by
  intro o
  obtain ⟨vo, tmo⟩ := o
  refine ⟨?_, ?_, ?_, ?_, rfl⟩
  · intro t ht hbad
    simp only at ht
    subst ht
    have htime : validTimeout (some t) = false := by
      rcases hbad with hbad | hbad
      · simp [validTimeout]
        omega
      · simp [validTimeout]
        omega
    cases hvo : validVersionOverride vo with
    | true =>
      refine ⟨"timeout failed validation", ?_⟩
      simp [executeRequest, requestOptionsParse, hvo, htime]
    | false =>
      refine ⟨"versionOverride failed validation", ?_⟩
      simp [executeRequest, requestOptionsParse, hvo]
  · intro hvo
    simp only at hvo
    subst hvo
    refine ⟨"versionOverride failed validation", ?_⟩
    simp [executeRequest, requestOptionsParse, validVersionOverride]
  · intro t ht h0 h6 hvo
    simp only at ht hvo
    subst ht
    subst hvo
    simp [executeRequest, requestOptionsParse, validVersionOverride,
      validTimeout, h0, h6]
  · intro ht hvo
    simp only at ht hvo
    subst ht
    subst hvo
    rfl

/-- C10 witness: a concrete in-range timeout with no override is
accepted and a concrete oversized timeout is rejected. -/
theorem claim_c10_witness :
    executeRequest (some ⟨none, some 500⟩)
      = .clientCreated (some ⟨none, some 500⟩) ∧
    ∃ e, executeRequest (some ⟨none, some 70000⟩) = .rejected e :=
  ⟨(claim_c10 ⟨none, some 500⟩).2.2.1 500 rfl (by decide) (by decide) rfl,
   (claim_c10 ⟨none, some 70000⟩).1 70000 rfl (Or.inr (by decide))⟩

end MondayApi
